import Mathlib

/-!
# Verification of the QuantFinanceToolkit backtesting framework

Shallow embedding of `src/quant_finance_toolkit/python/backtesting_framework.py`.

Modelling choices:
* A pandas `Series` of floats is modelled as a `List ℚ` (prices are finite
  decimal floats; all arithmetic the claims exercise is exact on positive
  finite inputs, so ℚ is a faithful carrier).
* A Python exception escaping `run()` is modelled with `Except PyErr`.
  The source performs no input validation: `pd.Series(values, index)` raises
  `ValueError` when a list-like `values` has a different length than `index`,
  and `equity.iloc[-1]` raises `IndexError` on an empty series.  The spec's
  error taxonomy also names an `InvalidInputError`; no such class exists in
  the source, but the constructor is included so that statements about it can
  be made.
* pandas `Series.std()` uses the sample standard deviation (`ddof = 1`),
  which is NaN for a series of length ≤ 1; `NaN == 0` is `False` in Python.
  `SharpeResult` keeps the three distinguishable outcomes of `_sharpe`:
  the NaN outcome, the literal `0.0` fallback, and the finite value
  `sqrt(252) * mean(excess) / std(excess)`, the latter represented exactly by
  the pair (mean of excess, sample variance of excess) since
  `std = sqrt(variance)` and the variance is rational.
-/

namespace QFT

/-- Python exceptions that can escape `Backtester.run`.  `invalidInputError`
models the spec's `InvalidInputError`; the source never defines or raises it. -/
inductive PyErr where
  | indexError
  | valueError
  | invalidInputError
deriving DecidableEq, Repr

/-- Outcome of `Backtester._sharpe`: `nan` when `excess.std()` is NaN
(length ≤ 1); `zero` for the literal `0.0` returned when `excess.std() == 0`;
`val m v` for the finite value `sqrt(252) * m / sqrt(v)` where `m` is the mean
of the excess series and `v` its sample variance (so `sqrt v` is its sample
standard deviation). -/
inductive SharpeResult where
  | nan
  | zero
  | val (m v : ℚ)
deriving DecidableEq, Repr

/-- The summary dict built by `run()`: `total_return`, `sharpe`,
`max_drawdown`.  `max_drawdown` is an `Option` because `dd.min()` on an empty
series would be NaN; `run()` only ever reaches it with a non-empty curve. -/
structure Summary where
  total_return : ℚ
  sharpe : SharpeResult
  max_drawdown : Option ℚ
deriving DecidableEq, Repr

/-- Embeds `self.prices.pct_change().fillna(0.0)`: element 0 is `NaN` filled to `0`,
element `i ≥ 1` is `price[i] / price[i-1] - 1` (pandas computes
`df / df.shift(1) - 1`). -/
def compute_returns (prices : List ℚ) : List ℚ :=
  match prices with
  | [] => []
  | p :: ps => 0 :: List.zipWith (fun prev cur => cur / prev - 1) (p :: ps) ps

/-- Embeds `signals.shift(1).fillna(0.0)`: drop the last element, prepend a filled 0. -/
def shift_fill (xs : List ℚ) : List ℚ :=
  match xs with
  | [] => []
  | _ :: _ => 0 :: xs.dropLast

/-- Running product with accumulator, for `Series.cumprod()`. -/
def cumprodAux (acc : ℚ) : List ℚ → List ℚ
  | [] => []
  | x :: xs => (acc * x) :: cumprodAux (acc * x) xs

/-- Embeds `Series.cumprod()`: element `i` is the product of elements `0..i`. -/
def cumprod (xs : List ℚ) : List ℚ := cumprodAux 1 xs

/-- Running maximum with accumulator, for `Series.cummax()`. -/
def cummaxAux (acc : ℚ) : List ℚ → List ℚ
  | [] => []
  | x :: xs => (max acc x) :: cummaxAux (max acc x) xs

/-- Embeds `Series.cummax()`: element `i` is the maximum of elements `0..i`. -/
def cummax (xs : List ℚ) : List ℚ :=
  match xs with
  | [] => []
  | x :: xs => x :: cummaxAux x xs

/-- Embeds `Series.min()`: `none` (NaN) on an empty series, otherwise the minimum. -/
def seriesMin (xs : List ℚ) : Option ℚ :=
  match xs with
  | [] => none
  | x :: xs => some (xs.foldl min x)

/-- Embeds `Series.mean()`. -/
def mean (xs : List ℚ) : ℚ := xs.sum / xs.length

/-- Sample variance with `ddof = 1`, the square of pandas `Series.std()`:
`none` models the NaN produced for a series of length ≤ 1. -/
def sampleVar (xs : List ℚ) : Option ℚ :=
  if xs.length < 2 then none
  else some ((xs.map (fun x => (x - mean xs) ^ 2)).sum / ((xs.length : ℚ) - 1))

/-- Embeds `Backtester._sharpe(rets, risk_free=0.0)`.  `excess = rets - risk_free/252`;
`if excess.std() == 0: return 0.0` (the comparison is `False` when the std is
NaN, i.e. length ≤ 1); otherwise `sqrt(252) * excess.mean() / excess.std()`,
NaN when the std is NaN. -/
def sharpe (rets : List ℚ) (risk_free : ℚ) : SharpeResult :=
  let excess := rets.map (fun r => r - risk_free / 252)
  match sampleVar excess with
  | none => SharpeResult.nan
  | some v => if v = 0 then SharpeResult.zero else SharpeResult.val (mean excess) v

/-- Embeds `Backtester._max_drawdown(equity)`:
`roll_max = equity.cummax(); dd = equity / roll_max - 1.0; return dd.min()`. -/
def max_drawdown (equity : List ℚ) : Option ℚ :=
  seriesMin (List.zipWith (fun e m => e / m - 1) equity (cummax equity))

/-- Embeds `Backtester.run()`, with the price series and strategy function read from
the instance passed explicitly.  Statements are translated in source order:
returns, signal alignment (the `pd.Series(values, index)` call raises
`ValueError` on a list-like of mismatched length), lag, strategy returns,
equity curve, then the summary dict, whose first entry `total_return`
evaluates `equity.iloc[-1]` and raises `IndexError` on an empty curve. -/
def run (prices : List ℚ) (strategy_func : List ℚ → List ℚ) :
    Except PyErr (List ℚ × List ℚ × Summary) :=
  let rets := compute_returns prices
  let signals := strategy_func prices
  if signals.length ≠ prices.length then Except.error PyErr.valueError
  else
    let shifted_signals := shift_fill signals
    let strat_rets := List.zipWith (fun s r => s * r) shifted_signals rets
    let equity := cumprod (strat_rets.map (fun r => 1 + r))
    match equity.getLast? with
    | none => Except.error PyErr.indexError
    | some last =>
        Except.ok (strat_rets, equity,
          ⟨last - 1, sharpe strat_rets 0, max_drawdown equity⟩)

/-- The `Backtester` instance: `__init__` stores exactly these two fields and
no method ever assigns to `self`. -/
structure Backtester where
  prices : List ℚ
  strategy_func : List ℚ → List ℚ

/-- Embeds `Backtester.compute_returns` as a method: a state transformer on the
instance returning the result together with the post-call instance.  The
method body reads `self.prices` and writes no field. -/
def Backtester.computeReturnsM (bt : Backtester) : List ℚ × Backtester :=
  (compute_returns bt.prices, bt)

/-- Embeds `Backtester.run` as a method: a state transformer on the instance.  The
method body reads `self.prices` and `self.strategy_func` and writes no field;
all derived series are locals. -/
def Backtester.runM (bt : Backtester) :
    Except PyErr (List ℚ × List ℚ × Summary) × Backtester :=
  (run bt.prices bt.strategy_func, bt)

/-! ### Helper lemmas about the embedded operations -/

theorem compute_returns_length (prices : List ℚ) :
    (compute_returns prices).length = prices.length := by
  cases prices with
  | nil => rfl
  | cons p ps => simp [compute_returns]

theorem shift_fill_length (xs : List ℚ) : (shift_fill xs).length = xs.length := by
  cases xs with
  | nil => rfl
  | cons x l => simp [shift_fill]

theorem cumprodAux_length (xs : List ℚ) (acc : ℚ) :
    (cumprodAux acc xs).length = xs.length := by
  induction xs generalizing acc with
  | nil => rfl
  | cons x l ih => simp [cumprodAux, ih]

theorem cumprod_length (xs : List ℚ) : (cumprod xs).length = xs.length := by
  simp [cumprod, cumprodAux_length]

theorem cummaxAux_length (xs : List ℚ) (acc : ℚ) :
    (cummaxAux acc xs).length = xs.length := by
  induction xs generalizing acc with
  | nil => rfl
  | cons x l ih => simp [cummaxAux, ih]

theorem cummax_length (xs : List ℚ) : (cummax xs).length = xs.length := by
  cases xs with
  | nil => rfl
  | cons x l => simp [cummax, cummaxAux_length]

theorem cumprodAux_getElem? (xs : List ℚ) (acc : ℚ) (i : ℕ) (h : i < xs.length) :
    (cumprodAux acc xs)[i]? = some (acc * (xs.take (i + 1)).prod) := by
  induction xs generalizing acc i with
  | nil => simp at h
  | cons x l ih =>
    cases i with
    | zero => simp [cumprodAux]
    | succ n =>
      have hn : n < l.length := by simpa using h
      rw [show cumprodAux acc (x :: l) = (acc * x) :: cumprodAux (acc * x) l from rfl,
        List.getElem?_cons_succ, ih (acc * x) n hn, List.take_succ_cons, List.prod_cons]
      congr 1
      ring

theorem cumprod_getElem? (xs : List ℚ) (i : ℕ) (h : i < xs.length) :
    (cumprod xs)[i]? = some ((xs.take (i + 1)).prod) := by
  simpa using cumprodAux_getElem? xs 1 i h

theorem cummaxAux_getElem? (xs : List ℚ) (acc : ℚ) (i : ℕ) (h : i < xs.length) :
    (cummaxAux acc xs)[i]? = some ((xs.take (i + 1)).foldl max acc) := by
  induction xs generalizing acc i with
  | nil => simp at h
  | cons x l ih =>
    cases i with
    | zero => simp [cummaxAux]
    | succ n =>
      have hn : n < l.length := by simpa using h
      simp [cummaxAux, ih, hn]

theorem le_foldl_max_init (xs : List ℚ) (acc : ℚ) : acc ≤ xs.foldl max acc := by
  induction xs generalizing acc with
  | nil => exact le_refl acc
  | cons x l ih => exact le_trans (le_max_left acc x) (ih (max acc x))

theorem le_foldl_max_mem (xs : List ℚ) (acc b : ℚ) (hb : b ∈ xs) :
    b ≤ xs.foldl max acc := by
  induction xs generalizing acc with
  | nil => cases hb
  | cons x l ih =>
    rw [List.foldl_cons]
    rcases List.mem_cons.mp hb with h | h
    · subst h
      exact le_trans (le_max_right acc b) (le_foldl_max_init l (max acc b))
    · exact ih (max acc x) h

theorem seriesMin_eq_min? (xs : List ℚ) : seriesMin xs = xs.min? := by
  cases xs <;> rfl

theorem seriesMin_spec (xs : List ℚ) (m : ℚ) (h : seriesMin xs = some m) :
    m ∈ xs ∧ ∀ b ∈ xs, m ≤ b := by
  rw [seriesMin_eq_min?] at h
  haveI : Std.Antisymm ((· : ℚ) ≤ ·) := ⟨fun h h₂ => le_antisymm h h₂⟩
  exact (List.min?_eq_some_iff (fun a => le_refl a) (fun a b => min_choice a b)
    (fun a b c => le_min_iff)).mp h

theorem seriesMin_isSome (xs : List ℚ) (h : xs ≠ []) :
    ∃ m, seriesMin xs = some m := by
  cases xs with
  | nil => exact absurd rfl h
  | cons x l => exact ⟨l.foldl min x, rfl⟩

/-- Normal form of a successful `run`: with non-empty prices and an
equal-length signal output, `run` succeeds and its three components are the
strategy-return series, the equity curve, and the summary built from them. -/
theorem run_ok (prices : List ℚ) (f : List ℚ → List ℚ)
    (hne : prices ≠ []) (hlen : (f prices).length = prices.length) :
    ∃ last,
      (cumprod (((List.zipWith (fun s r => s * r) (shift_fill (f prices))
          (compute_returns prices))).map (fun r => 1 + r))).getLast? = some last ∧
      run prices f = Except.ok
        (List.zipWith (fun s r => s * r) (shift_fill (f prices)) (compute_returns prices),
         cumprod ((List.zipWith (fun s r => s * r) (shift_fill (f prices))
            (compute_returns prices)).map (fun r => 1 + r)),
         ⟨last - 1,
          sharpe (List.zipWith (fun s r => s * r) (shift_fill (f prices))
            (compute_returns prices)) 0,
          max_drawdown (cumprod ((List.zipWith (fun s r => s * r) (shift_fill (f prices))
            (compute_returns prices)).map (fun r => 1 + r)))⟩) := by
  have hstratlen : (List.zipWith (fun s r => s * r) (shift_fill (f prices))
      (compute_returns prices)).length = prices.length := by
    simp [List.length_zipWith, shift_fill_length, compute_returns_length, hlen]
  have heqlen : (cumprod ((List.zipWith (fun s r => s * r) (shift_fill (f prices))
      (compute_returns prices)).map (fun r => 1 + r))).length = prices.length := by
    simp [cumprod_length, hstratlen]
  have heqne : (cumprod ((List.zipWith (fun s r => s * r) (shift_fill (f prices))
      (compute_returns prices)).map (fun r => 1 + r))) ≠ [] := by
    intro hcon
    apply hne
    have := heqlen
    rw [hcon] at this
    exact List.length_eq_zero.mp this.symm
  obtain ⟨last, hlast⟩ :=
    Option.isSome_iff_exists.mp (List.getLast?_isSome.mpr heqne)
  refine ⟨last, hlast, ?_⟩
  simp only [run, hlen, ne_eq, not_true_eq_false, if_false, hlast]

theorem compute_returns_getElem?_zero (prices : List ℚ) (h : prices ≠ []) :
    (compute_returns prices)[0]? = some 0 := by
  cases prices with
  | nil => exact absurd rfl h
  | cons p ps => simp [compute_returns]

theorem shift_fill_getElem?_zero (xs : List ℚ) (h : xs ≠ []) :
    (shift_fill xs)[0]? = some 0 := by
  cases xs with
  | nil => exact absurd rfl h
  | cons x l => simp [shift_fill]

theorem shift_fill_getElem?_succ (xs : List ℚ) (i : ℕ) (h1 : 1 ≤ i)
    (hi : i < xs.length) : (shift_fill xs)[i]? = xs[i - 1]? := by
  cases xs with
  | nil => simp at hi
  | cons x l =>
    obtain ⟨n, rfl⟩ := Nat.exists_eq_add_of_le h1
    have hn : (1 : ℕ) + n = n + 1 := by omega
    rw [hn]
    show (0 :: (x :: l).dropLast)[n + 1]? = _
    rw [List.getElem?_cons_succ, List.getElem?_dropLast,
      if_pos (by simp at hi ⊢; omega : n < (x :: l).length - 1)]
    congr 1

/-- Element 0 of the strategy-return series is `0 * return[0] = 0`. -/
theorem strat_rets_getElem?_zero (prices : List ℚ) (f : List ℚ → List ℚ)
    (hne : prices ≠ []) (hlen : (f prices).length = prices.length) :
    (List.zipWith (fun s r => s * r) (shift_fill (f prices))
      (compute_returns prices))[0]? = some 0 := by
  have hfne : f prices ≠ [] := by
    intro hcon
    apply hne
    rw [hcon] at hlen
    exact List.length_eq_zero.mp hlen.symm
  rw [List.getElem?_zipWith_eq_some]
  exact ⟨0, 0, shift_fill_getElem?_zero _ hfne,
    compute_returns_getElem?_zero _ hne, by ring⟩

/-! ### Claim theorems -/

/-- C5: `compute_returns()` returns a series of the same length as the price
series, with element 0 equal to 0 and element `i ≥ 1` equal to
`(price[i] - price[i-1]) / price[i-1]`; on `[100, 100, 100]` it yields exactly
`[0, 0, 0]`. -/
theorem c5_compute_returns_spec (prices : List ℚ) (hpos : ∀ p ∈ prices, 0 < p) :
    (compute_returns prices).length = prices.length
    ∧ (prices ≠ [] → (compute_returns prices)[0]? = some 0)
    ∧ (∀ i, 1 ≤ i → i < prices.length → ∀ pi pim,
        prices[i]? = some pi → prices[i - 1]? = some pim →
        (compute_returns prices)[i]? = some ((pi - pim) / pim))
    ∧ compute_returns [100, 100, 100] = [0, 0, 0] := by
  refine ⟨compute_returns_length prices, compute_returns_getElem?_zero prices, ?_,
    by norm_num [compute_returns]⟩
  · intro i h1 hi pi pim hpi hpim
    cases prices with
    | nil => simp at hi
    | cons p ps =>
      obtain ⟨n, rfl⟩ := Nat.exists_eq_add_of_le h1
      have hmem : pim ∈ p :: ps := by
        obtain ⟨hlt, rfl⟩ := List.getElem?_eq_some_iff.mp hpim
        exact List.getElem_mem hlt
      have hne : pim ≠ 0 := ne_of_gt (hpos pim hmem)
      have hn : (1 + n) - 1 = n := by omega
      rw [hn] at hpim
      have hps : ps[n]? = some pi := by
        have : (1 : ℕ) + n = n + 1 := by omega
        rw [this] at hpi
        simpa using hpi
      have hzip : (List.zipWith (fun prev cur => cur / prev - 1) (p :: ps) ps)[n]? =
          some (pi / pim - 1) := by
        rw [List.getElem?_zipWith_eq_some]
        exact ⟨pim, pi, hpim, hps, rfl⟩
      have : (1 : ℕ) + n = n + 1 := by omega
      rw [this]
      show (0 :: List.zipWith (fun prev cur => cur / prev - 1) (p :: ps) ps)[n + 1]? = _
      rw [List.getElem?_cons_succ, hzip, sub_div, div_self hne]

/-- C5 witness: the full statement instantiated at `prices = [100, 110, 121]`. -/
theorem c5_compute_returns_spec_witness :
    (compute_returns [100, 110, 121]).length = ([100, 110, 121] : List ℚ).length
    ∧ (([100, 110, 121] : List ℚ) ≠ [] → (compute_returns [100, 110, 121])[0]? = some 0)
    ∧ (∀ i, 1 ≤ i → i < ([100, 110, 121] : List ℚ).length → ∀ pi pim,
        ([100, 110, 121] : List ℚ)[i]? = some pi →
        ([100, 110, 121] : List ℚ)[i - 1]? = some pim →
        (compute_returns [100, 110, 121])[i]? = some ((pi - pim) / pim))
    ∧ compute_returns [100, 100, 100] = [0, 0, 0] :=
  c5_compute_returns_spec [100, 110, 121] (by norm_num)

/-- C2: with equal-length signal output on a non-empty price series, the
one-bar lag holds — `shiftedSignal[0] = 0`, `shiftedSignal[i] = signal[i-1]`
for `i ≥ 1` — and `run` succeeds with `StrategyReturnSeries[0] = 0`. -/
theorem c2_one_bar_lag (prices : List ℚ) (f : List ℚ → List ℚ)
    (hne : prices ≠ []) (hlen : (f prices).length = prices.length) :
    (shift_fill (f prices))[0]? = some 0
    ∧ (∀ i, 1 ≤ i → i < prices.length →
        (shift_fill (f prices))[i]? = (f prices)[i - 1]?)
    ∧ ∃ sr eq sm, run prices f = Except.ok (sr, eq, sm) ∧ sr[0]? = some 0 := by
  have hfne : f prices ≠ [] := by
    intro hcon
    apply hne
    rw [hcon] at hlen
    exact (List.length_eq_zero.mp hlen.symm)
  refine ⟨shift_fill_getElem?_zero _ hfne, ?_, ?_⟩
  · intro i h1 hi
    exact shift_fill_getElem?_succ (f prices) i h1 (by omega)
  · obtain ⟨last, hlast, hrun⟩ := run_ok prices f hne hlen
    exact ⟨_, _, _, hrun, strat_rets_getElem?_zero prices f hne hlen⟩

/-- C2 witness: instantiated at `prices = [100, 110]`, signal `[1, 1]`. -/
theorem c2_one_bar_lag_witness :
    (shift_fill ((fun _ => [1, 1]) ([100, 110] : List ℚ)))[0]? = some 0
    ∧ (∀ i, 1 ≤ i → i < ([100, 110] : List ℚ).length →
        (shift_fill ((fun _ => [1, 1]) ([100, 110] : List ℚ)))[i]? =
          ((fun _ => [1, 1]) ([100, 110] : List ℚ))[i - 1]?)
    ∧ ∃ sr eq sm, run [100, 110] (fun _ => [1, 1]) = Except.ok (sr, eq, sm)
        ∧ sr[0]? = some 0 :=
  c2_one_bar_lag [100, 110] (fun _ => [1, 1]) (by simp) rfl

/-- C10: `run` never validates signal values — for any equal-length numeric
signal sequence, even far outside `{-1, 0, 1}`, it succeeds and multiplies
`signal[i-1]` into `return[i]` unchanged, with `StrategyReturn[0] = 0`. -/
theorem c10_no_signal_validation (prices : List ℚ) (f : List ℚ → List ℚ)
    (hne : prices ≠ []) (hlen : (f prices).length = prices.length) :
    ∃ sr eq sm, run prices f = Except.ok (sr, eq, sm)
      ∧ sr[0]? = some 0
      ∧ ∀ i, 1 ≤ i → i < prices.length → ∀ s r,
          (f prices)[i - 1]? = some s → (compute_returns prices)[i]? = some r →
          sr[i]? = some (s * r) := by
  obtain ⟨last, hlast, hrun⟩ := run_ok prices f hne hlen
  refine ⟨_, _, _, hrun, strat_rets_getElem?_zero prices f hne hlen, ?_⟩
  intro i h1 hi s r hsig hret
  have hshift : (shift_fill (f prices))[i]? = some s := by
    rw [shift_fill_getElem?_succ (f prices) i h1 (by omega), hsig]
  rw [List.getElem?_zipWith_eq_some]
  exact ⟨s, r, hshift, hret, rfl⟩

/-- C10 witness: instantiated at `prices = [100, 110, 121]` with the
out-of-range signal `[5, -7, 3]`. -/
theorem c10_no_signal_validation_witness :
    ∃ sr eq sm, run [100, 110, 121] (fun _ => [5, -7, 3]) = Except.ok (sr, eq, sm)
      ∧ sr[0]? = some 0
      ∧ ∀ i, 1 ≤ i → i < ([100, 110, 121] : List ℚ).length → ∀ s r,
          ((fun _ => [5, -7, 3]) ([100, 110, 121] : List ℚ))[i - 1]? = some s →
          (compute_returns [100, 110, 121])[i]? = some r →
          sr[i]? = some (s * r) :=
  c10_no_signal_validation [100, 110, 121] (fun _ => [5, -7, 3]) (by simp) rfl

/-- C9: `compute_returns()` and `run()` leave the instance exactly as
constructed — `prices` and `strategy_func` unchanged, and the instance, which
carries no other field, is preserved whole (no derived series is retained). -/
theorem c9_methods_preserve_instance (bt : Backtester) :
    bt.computeReturnsM.2 = bt
    ∧ bt.runM.2 = bt
    ∧ bt.computeReturnsM.2.prices = bt.prices
    ∧ bt.runM.2.prices = bt.prices
    ∧ bt.runM.2.strategy_func = bt.strategy_func :=
  ⟨rfl, rfl, rfl, rfl, rfl⟩

/-- C8: `run()` is a pure deterministic function of the stored
`(prices, strategy_func)`: a second call on the instance left by the first
call returns an identical result, and the instance after both calls is the
one constructed. -/
theorem c8_run_idempotent (bt : Backtester) :
    bt.runM.2.runM.1 = bt.runM.1 ∧ bt.runM.2.runM.2 = bt :=
  ⟨rfl, rfl⟩

/-- C1 counterexample: the source performs no validation and defines no
`InvalidInputError`.  On an empty price series `run()` fails with
`IndexError` (raised by `equity.iloc[-1]` after the whole computation), and
on a length-2 signal for a length-1 price series it fails with pandas'
`ValueError`; neither is the `InvalidInputError` the claim requires. -/
theorem c1_counterexample :
    run ([] : List ℚ) (fun _ => []) = Except.error PyErr.indexError
    ∧ run [100] (fun _ => [1, 1]) = Except.error PyErr.valueError
    ∧ PyErr.indexError ≠ PyErr.invalidInputError
    ∧ PyErr.valueError ≠ PyErr.invalidInputError :=
  ⟨rfl, rfl, by decide, by decide⟩

/-- C1 amended: `run()` performs no input validation and never raises
`InvalidInputError`.  A Signal Provider output length ≠ N fails with pandas'
`ValueError` when the signal series is aligned to the price index; an empty
price series (with matching empty signal output) is fully processed and
fails only with `IndexError` when `total_return` reads the last equity
value; in every other case `run()` succeeds. -/
theorem c1_error_behaviour (prices : List ℚ) (f : List ℚ → List ℚ) :
    run prices f ≠ Except.error PyErr.invalidInputError
    ∧ ((f prices).length ≠ prices.length →
        run prices f = Except.error PyErr.valueError)
    ∧ ((f prices).length = prices.length → prices = [] →
        run prices f = Except.error PyErr.indexError)
    ∧ ((f prices).length = prices.length → prices ≠ [] →
        ∃ out, run prices f = Except.ok out) := by
  by_cases hlen : (f prices).length = prices.length
  · by_cases hnil : prices = []
    · subst hnil
      have hsig : f [] = [] := List.length_eq_zero.mp (by simpa using hlen)
      have hrun : run ([] : List ℚ) f = Except.error PyErr.indexError := by
        simp [run, hsig, compute_returns, shift_fill, cumprod, cumprodAux]
      refine ⟨by simp [hrun], fun h => absurd hlen h, fun _ _ => hrun,
        fun _ h => absurd rfl h⟩
    · obtain ⟨last, hlast, hrun⟩ := run_ok prices f hnil hlen
      refine ⟨by simp [hrun], fun h => absurd hlen h, fun _ h => absurd h hnil,
        fun _ _ => ⟨_, hrun⟩⟩
  · have hrun : run prices f = Except.error PyErr.valueError := by
      simp [run, hlen]
    exact ⟨by simp [hrun], fun _ => hrun, fun h => absurd h hlen,
      fun h => absurd h hlen⟩

/-- C1 witness: the amended behaviour at concrete inputs — a mismatched
signal gives `ValueError`, empty prices give `IndexError`, and a valid
input succeeds. -/
theorem c1_error_behaviour_witness :
    run [100] (fun _ => [1, 1]) = Except.error PyErr.valueError
    ∧ run ([] : List ℚ) (fun _ => []) = Except.error PyErr.indexError
    ∧ ∃ out, run [100] (fun _ => [0]) = Except.ok out :=
  ⟨(c1_error_behaviour [100] (fun _ => [1, 1])).2.1 (by decide),
   (c1_error_behaviour ([] : List ℚ) (fun _ => [])).2.2.1 rfl rfl,
   (c1_error_behaviour [100] (fun _ => [0])).2.2.2 rfl (by simp)⟩

theorem sum_eq_zero_iff_of_nonneg (l : List ℚ) (h : ∀ x ∈ l, 0 ≤ x) :
    l.sum = 0 ↔ ∀ x ∈ l, x = 0 := by
  induction l with
  | nil => simp
  | cons x xs ih =>
    have hx : 0 ≤ x := h x (List.mem_cons_self x xs)
    have hxs : ∀ y ∈ xs, 0 ≤ y := fun y hy => h y (List.mem_cons_of_mem x hy)
    have hsum : 0 ≤ xs.sum := List.sum_nonneg hxs
    constructor
    · intro hs
      have hx0 : x = 0 := by
        have : x + xs.sum = 0 := by simpa using hs
        linarith
      have hxs0 : xs.sum = 0 := by
        have : x + xs.sum = 0 := by simpa using hs
        linarith
      intro y hy
      rcases List.mem_cons.mp hy with h' | h'
      · exact h' ▸ hx0
      · exact ((ih hxs).mp hxs0) y h'
    · intro hz
      have hx0 : x = 0 := hz x (List.mem_cons_self x xs)
      have : xs.sum = 0 := (ih hxs).mpr (fun y hy => hz y (List.mem_cons_of_mem x hy))
      simp [hx0, this]

/-- C3 counterexample: for the length-1 strategy-return series `[0]` (which
`run()` produces from a one-element price series) the sample standard
deviation (`ddof = 1`) is NaN, the `== 0` test is `False`, and `_sharpe`
returns NaN — contradicting the claim that the Sharpe computation never
produces a division-by-zero or NaN. -/
theorem c3_counterexample :
    sharpe [0] 0 = SharpeResult.nan
    ∧ SharpeResult.nan ≠ SharpeResult.zero :=
  ⟨rfl, by decide⟩

/-- C3 amended: the Sharpe ratio is computed from
`excess[i] = strategyReturn[i] - riskFree/252` with `riskFree` defaulting
to 0 (so `excess = strategyReturn`); if the sample standard deviation
(`ddof = 1`) of `excess` is exactly 0 the Sharpe is `0.0`; for a series of
length ≤ 1 the sample standard deviation is NaN, the zero test fails, and
the Sharpe is NaN rather than a number; otherwise it equals
`sqrt(252) * mean(excess) / std(excess)`, represented by
`SharpeResult.val (mean excess) (variance excess)`.  For length ≥ 2 the
standard deviation is exactly 0 iff the series is constant. -/
theorem c3_sharpe_behaviour (rets : List ℚ) :
    (rets.map (fun r => r - (0 : ℚ) / 252) = rets)
    ∧ (sampleVar rets = some 0 → sharpe rets 0 = SharpeResult.zero)
    ∧ (rets.length ≤ 1 → sharpe rets 0 = SharpeResult.nan)
    ∧ (∀ v, sampleVar rets = some v → v ≠ 0 →
        sharpe rets 0 = SharpeResult.val (mean rets) v)
    ∧ (2 ≤ rets.length → (sampleVar rets = some 0 ↔ ∀ r ∈ rets, r = mean rets)) := by
  have hex : rets.map (fun r => r - (0 : ℚ) / 252) = rets := by
    simp
  refine ⟨hex, ?_, ?_, ?_, ?_⟩
  · intro h
    simp only [sharpe, hex, h]
    rfl
  · intro h
    have hlt : rets.length < 2 := by omega
    have hv : sampleVar rets = none := by
      simp [sampleVar, hlt]
    simp only [sharpe, hex, hv]
  · intro v hv hvne
    simp only [sharpe, hex, hv]
    simp [hvne]
  · intro h2
    have hlen1 : ¬ rets.length < 2 := by omega
    have hden : ((rets.length : ℚ) - 1) ≠ 0 := by
      have hq : (2 : ℚ) ≤ (rets.length : ℚ) := by exact_mod_cast h2
      intro hcon
      rw [sub_eq_zero] at hcon
      rw [hcon] at hq
      norm_num at hq
    have hnn : ∀ x ∈ rets.map (fun x => (x - mean rets) ^ 2), 0 ≤ x := by
      intro x hx
      obtain ⟨r, _, rfl⟩ := List.mem_map.mp hx
      positivity
    constructor
    · intro h
      simp only [sampleVar, if_neg hlen1, Option.some.injEq,
        div_eq_zero_iff] at h
      rcases h with h | h
      · intro r hr
        have := (sum_eq_zero_iff_of_nonneg _ hnn).mp h
        have hr0 := this ((r - mean rets) ^ 2) (List.mem_map.mpr ⟨r, hr, rfl⟩)
        have := pow_eq_zero_iff (n := 2) (by norm_num) |>.mp hr0
        linarith [sub_eq_zero.mp this]
      · exact absurd h hden
    · intro hconst
      simp only [sampleVar, if_neg hlen1, Option.some.injEq]
      have : ∀ x ∈ rets.map (fun x => (x - mean rets) ^ 2), x = 0 := by
        intro x hx
        obtain ⟨r, hr, rfl⟩ := List.mem_map.mp hx
        rw [hconst r hr]
        ring
      rw [(sum_eq_zero_iff_of_nonneg _ hnn).mpr this, zero_div]

/-- C3 witness: a constant length-2 series has sample std exactly 0 and
Sharpe `0.0`; the formula branch is exercised at `[0, 1/10]`. -/
theorem c3_sharpe_behaviour_witness :
    sharpe [1, 1] 0 = SharpeResult.zero
    ∧ sharpe [0, 1/10] 0 = SharpeResult.val (mean [0, 1/10]) (1/200) :=
  ⟨(c3_sharpe_behaviour [1, 1]).2.1 (by norm_num [sampleVar, mean]),
   (c3_sharpe_behaviour [0, 1/10]).2.2.2.1 (1/200)
     (by norm_num [sampleVar, mean]) (by norm_num)⟩

/-- C4: with non-empty prices and an equal-length signal output, `run`
succeeds; the strategy-return series is the lagged signal multiplied
elementwise into the return series, every equity-curve element `i` is the
product over `j = 0..i` of `(1 + StrategyReturn[j])`, and the reported total
return is `EquityCurve[N-1] - 1`. -/
theorem c4_equity_and_total_return (prices : List ℚ) (f : List ℚ → List ℚ)
    (hne : prices ≠ []) (hlen : (f prices).length = prices.length) :
    ∃ sr eq sm, run prices f = Except.ok (sr, eq, sm)
      ∧ sr = List.zipWith (fun s r => s * r) (shift_fill (f prices))
          (compute_returns prices)
      ∧ (∀ i, i < prices.length →
          eq[i]? = some (((sr.take (i + 1)).map (fun r => 1 + r)).prod))
      ∧ ∃ last, eq[prices.length - 1]? = some last
          ∧ sm.total_return = last - 1 := by
  obtain ⟨last, hlast, hrun⟩ := run_ok prices f hne hlen
  have hsrlen : (List.zipWith (fun s r => s * r) (shift_fill (f prices))
      (compute_returns prices)).length = prices.length := by
    simp [List.length_zipWith, shift_fill_length, compute_returns_length, hlen]
  have hmaplen : ((List.zipWith (fun s r => s * r) (shift_fill (f prices))
      (compute_returns prices)).map (fun r => 1 + r)).length = prices.length := by
    simp [hsrlen]
  refine ⟨_, _, _, hrun, rfl, ?_, ?_⟩
  · intro i hi
    rw [cumprod_getElem? _ i (by rw [hmaplen]; exact hi), List.map_take]
  · refine ⟨last, ?_, rfl⟩
    rw [List.getLast?_eq_getElem?, cumprod_length, hmaplen] at hlast
    exact hlast

/-- C4 witness: the full statement instantiated at `prices = [100, 110, 121]`
with constant long signal `[1, 1, 1]`. -/
theorem c4_equity_and_total_return_witness :
    ∃ sr eq sm, run [100, 110, 121] (fun _ => [1, 1, 1]) = Except.ok (sr, eq, sm)
      ∧ sr = List.zipWith (fun s r => s * r)
          (shift_fill ((fun _ => [1, 1, 1]) ([100, 110, 121] : List ℚ)))
          (compute_returns [100, 110, 121])
      ∧ (∀ i, i < ([100, 110, 121] : List ℚ).length →
          eq[i]? = some (((sr.take (i + 1)).map (fun r => 1 + r)).prod))
      ∧ ∃ last, eq[([100, 110, 121] : List ℚ).length - 1]? = some last
          ∧ sm.total_return = last - 1 :=
  c4_equity_and_total_return [100, 110, 121] (fun _ => [1, 1, 1]) (by simp) rfl

theorem zipWith_mul_replicate_zero (n : ℕ) (rets : List ℚ) :
    List.zipWith (fun s r => s * r) (List.replicate n 0) rets =
      List.replicate (min n rets.length) 0 := by
  induction n generalizing rets with
  | zero => simp
  | succ m ih =>
    cases rets with
    | nil => simp
    | cons r rs =>
      simp only [List.replicate_succ, List.zipWith_cons_cons, ih,
        List.length_cons, Nat.succ_min_succ, zero_mul]

theorem shift_fill_replicate_zero (n : ℕ) :
    shift_fill (List.replicate n (0 : ℚ)) = List.replicate n 0 := by
  cases n with
  | zero => rfl
  | succ m =>
    rw [List.replicate_succ]
    show 0 :: ((0 : ℚ) :: List.replicate m 0).dropLast = _
    rw [← List.replicate_succ, List.dropLast_replicate]
    simp [List.replicate_succ]

theorem cumprodAux_replicate_one (n : ℕ) (acc : ℚ) :
    cumprodAux acc (List.replicate n 1) = List.replicate n acc := by
  induction n generalizing acc with
  | zero => rfl
  | succ m ih => simp [List.replicate_succ, cumprodAux, ih]

theorem cummaxAux_replicate_self (n : ℕ) (a : ℚ) :
    cummaxAux a (List.replicate n a) = List.replicate n a := by
  induction n with
  | zero => rfl
  | succ m ih => simp [List.replicate_succ, cummaxAux, ih]

theorem sharpe_replicate_zero (n : ℕ) (h2 : 2 ≤ n) :
    sharpe (List.replicate n 0) 0 = SharpeResult.zero := by
  have hmap : (List.replicate n (0 : ℚ)).map (fun r => r - 0 / 252) =
      List.replicate n 0 := by simp
  have hlen1 : ¬ n < 2 := by omega
  have hmean : mean (List.replicate n (0 : ℚ)) = 0 := by simp [mean]
  have hvar : sampleVar (List.replicate n (0 : ℚ)) = some 0 := by
    simp [sampleVar, hlen1, hmean]
  simp [sharpe, hmap, hvar]

theorem max_drawdown_replicate_one (n : ℕ) (h1 : 1 ≤ n) :
    max_drawdown (List.replicate n (1 : ℚ)) = some 0 := by
  obtain ⟨m, rfl⟩ : ∃ m, n = m + 1 := ⟨n - 1, by omega⟩
  have hcm : cummax (List.replicate (m + 1) (1 : ℚ)) = List.replicate (m + 1) 1 := by
    rw [List.replicate_succ]
    show (1 : ℚ) :: cummaxAux 1 (List.replicate m 1) = _
    rw [cummaxAux_replicate_self, ← List.replicate_succ]
  rw [max_drawdown, hcm, List.zipWith_same, List.map_replicate]
  norm_num
  rw [seriesMin_eq_min?, List.min?_replicate_of_pos (min_self 0) (by omega)]

/-- C7 counterexample: for a one-element price series and the all-zero
signal, `run()` succeeds with all-zero strategy returns, equity `[1.0]`,
`total_return = 0` and `max_drawdown = 0.0`, but the Sharpe is NaN (the
sample std of one observation is NaN), not the `0.0` the claim requires. -/
theorem c7_counterexample :
    run [100] (fun _ => [0]) =
      Except.ok ([0], [1], ⟨0, SharpeResult.nan, some 0⟩)
    ∧ SharpeResult.nan ≠ SharpeResult.zero :=
  ⟨by norm_num [run, compute_returns, shift_fill, cumprod, cumprodAux, sharpe,
      sampleVar, mean, max_drawdown, cummax, cummaxAux, seriesMin],
   by decide⟩

/-- C7 amended: for every positive price series of length ≥ 2, the all-zero
signal yields all-zero strategy returns, an all-1.0 equity curve,
`total_return = 0`, `sharpe = 0.0` and `max_drawdown = 0.0`.  (For a
length-1 series everything holds except the Sharpe, which is NaN.) -/
theorem c7_all_zero_signal (prices : List ℚ) (f : List ℚ → List ℚ)
    (_hpos : ∀ p ∈ prices, 0 < p) (h2 : 2 ≤ prices.length)
    (hz : f prices = List.replicate prices.length 0) :
    run prices f = Except.ok
      (List.replicate prices.length 0,
       List.replicate prices.length 1,
       ⟨0, SharpeResult.zero, some 0⟩) := by
  have hne : prices ≠ [] := by
    intro h
    rw [h] at h2
    simp at h2
  have hlen : (f prices).length = prices.length := by rw [hz]; simp
  obtain ⟨last, hlast, hrun⟩ := run_ok prices f hne hlen
  have hsr : List.zipWith (fun s r => s * r) (shift_fill (f prices))
      (compute_returns prices) = List.replicate prices.length 0 := by
    rw [hz, shift_fill_replicate_zero, zipWith_mul_replicate_zero,
      compute_returns_length, min_self]
  have heq : cumprod ((List.replicate prices.length (0 : ℚ)).map (fun r => 1 + r)) =
      List.replicate prices.length 1 := by
    rw [List.map_replicate]
    norm_num
    exact cumprodAux_replicate_one prices.length 1
  rw [hsr, heq] at hrun hlast
  rw [List.getLast?_replicate] at hlast
  rw [if_neg (by omega : ¬ prices.length = 0)] at hlast
  have hlast1 : last = 1 := by
    injection hlast with h
    exact h.symm
  subst hlast1
  rw [hrun, sharpe_replicate_zero prices.length h2,
    max_drawdown_replicate_one prices.length (by omega)]
  norm_num

/-- C7 witness: the amended statement at `prices = [100, 110]` with the
all-zero signal. -/
theorem c7_all_zero_signal_witness :
    run [100, 110] (fun _ => [0, 0]) =
      Except.ok ([0, 0], [1, 1], ⟨0, SharpeResult.zero, some 0⟩) := by
  simpa using c7_all_zero_signal [100, 110] (fun _ => [0, 0])
    (by norm_num) (by norm_num) rfl

theorem mem_of_getElem?_eq_some (l : List ℚ) (i : ℕ) (a : ℚ)
    (h : l[i]? = some a) : a ∈ l := by
  obtain ⟨hlt, rfl⟩ := List.getElem?_eq_some_iff.mp h
  exact List.getElem_mem hlt

/-- The running maximum of a non-decreasing list is the list itself. -/
theorem cummaxAux_of_chain (x : ℚ) (xs : List ℚ)
    (h : List.Chain' (· ≤ ·) (x :: xs)) : cummaxAux x xs = xs := by
  induction xs generalizing x with
  | nil => rfl
  | cons y ys ih =>
    obtain ⟨hxy, ht⟩ := List.chain'_cons.mp h
    simp [cummaxAux, max_eq_right hxy, ih y ht]

theorem chain_head_le (x : ℚ) (xs : List ℚ)
    (h : List.Chain' (· ≤ ·) (x :: xs)) : ∀ y ∈ x :: xs, x ≤ y := by
  intro y hy
  rcases List.mem_cons.mp hy with h' | h'
  · exact h' ▸ le_refl x
  · exact List.rel_of_pairwise_cons (List.chain'_iff_pairwise.mp h) h'

/-- Element `i` of `cummax (e0 :: rest)` is the maximum of the prefix
`0..i`, expressed as a `foldl max` seeded with the (contained) head. -/
theorem cummax_getElem?_prefix_max (e0 : ℚ) (rest : List ℚ) (i : ℕ)
    (hi : i < (e0 :: rest).length) :
    (cummax (e0 :: rest))[i]? =
      some (((e0 :: rest).take (i + 1)).foldl max e0) := by
  cases i with
  | zero => simp [cummax, max_self]
  | succ n =>
    have hn : n < rest.length := by simpa using hi
    rw [show cummax (e0 :: rest) = e0 :: cummaxAux e0 rest from rfl,
      List.getElem?_cons_succ, cummaxAux_getElem? rest e0 n hn]
    simp [List.take_succ_cons, max_self]

/-- C6: for every equity curve with positive first element, the reported max
drawdown is the minimum over `i` of `EquityCurve[i] / max(EquityCurve[0..i]) - 1`
(the rolling maximum being the prefix maximum); it is always ≤ 0, it is 0
when the curve is non-decreasing throughout, and it is < 0 whenever the
curve strictly dips below a prior value. -/
theorem c6_max_drawdown_spec (e0 : ℚ) (rest : List ℚ) (hpos : 0 < e0) :
    ∃ m, max_drawdown (e0 :: rest) = some m
      ∧ m ∈ List.zipWith (fun e c => e / c - 1) (e0 :: rest) (cummax (e0 :: rest))
      ∧ (∀ d ∈ List.zipWith (fun e c => e / c - 1) (e0 :: rest)
            (cummax (e0 :: rest)), m ≤ d)
      ∧ (∀ i, i < (e0 :: rest).length →
          (cummax (e0 :: rest))[i]? =
            some (((e0 :: rest).take (i + 1)).foldl max e0))
      ∧ m ≤ 0
      ∧ (List.Chain' (· ≤ ·) (e0 :: rest) → m = 0)
      ∧ (∀ i j, i < j → j < (e0 :: rest).length →
          ∀ ei ej, (e0 :: rest)[i]? = some ei → (e0 :: rest)[j]? = some ej →
          ej < ei → m < 0) := by
  have hClen : (cummax (e0 :: rest)).length = (e0 :: rest).length :=
    cummax_length (e0 :: rest)
  have hDne : List.zipWith (fun e c => e / c - 1) (e0 :: rest)
      (cummax (e0 :: rest)) ≠ [] := by
    intro hcon
    have := congrArg List.length hcon
    simp [List.length_zipWith, hClen] at this
  obtain ⟨m, hm⟩ := seriesMin_isSome _ hDne
  obtain ⟨hmem, hlb⟩ := seriesMin_spec _ m hm
  have hD0 : (List.zipWith (fun e c => e / c - 1) (e0 :: rest)
      (cummax (e0 :: rest)))[0]? = some 0 := by
    rw [List.getElem?_zipWith_eq_some]
    refine ⟨e0, e0, by simp, ?_, ?_⟩
    · rw [cummax_getElem?_prefix_max e0 rest 0 (by simp)]
      simp [max_self]
    · rw [div_self (ne_of_gt hpos)]
      ring
  have hm0 : m ≤ 0 :=
    hlb 0 (mem_of_getElem?_eq_some _ 0 0 hD0)
  refine ⟨m, by rw [max_drawdown]; exact hm, hmem, hlb,
    cummax_getElem?_prefix_max e0 rest, hm0, ?_, ?_⟩
  · intro hchain
    have hCE : cummax (e0 :: rest) = e0 :: rest := by
      show e0 :: cummaxAux e0 rest = e0 :: rest
      rw [cummaxAux_of_chain e0 rest hchain]
    rw [hCE, List.zipWith_same] at hmem
    obtain ⟨a, ha, hav⟩ := List.mem_map.mp hmem
    have hae : 0 < a := lt_of_lt_of_le hpos (chain_head_le e0 rest hchain a ha)
    rw [← hav, div_self (ne_of_gt hae)]
    ring
  · intro i j hij hj ei ej hei hej hlt
    have hcj : (cummax (e0 :: rest))[j]? =
        some (((e0 :: rest).take (j + 1)).foldl max e0) :=
      cummax_getElem?_prefix_max e0 rest j hj
    have hei_take : ((e0 :: rest).take (j + 1))[i]? = some ei := by
      rw [List.getElem?_take_of_lt (by omega)]
      exact hei
    have hei_mem : ei ∈ (e0 :: rest).take (j + 1) :=
      mem_of_getElem?_eq_some _ i ei hei_take
    have hcj_ge : ei ≤ ((e0 :: rest).take (j + 1)).foldl max e0 :=
      le_foldl_max_mem _ e0 ei hei_mem
    have hcj_pos : 0 < ((e0 :: rest).take (j + 1)).foldl max e0 :=
      lt_of_lt_of_le hpos (le_foldl_max_init _ e0)
    have hDj : (List.zipWith (fun e c => e / c - 1) (e0 :: rest)
        (cummax (e0 :: rest)))[j]? =
        some (ej / ((e0 :: rest).take (j + 1)).foldl max e0 - 1) := by
      rw [List.getElem?_zipWith_eq_some]
      exact ⟨ej, _, hej, hcj, rfl⟩
    have hdj_neg : ej / ((e0 :: rest).take (j + 1)).foldl max e0 - 1 < 0 := by
      have : ej / ((e0 :: rest).take (j + 1)).foldl max e0 < 1 :=
        (div_lt_one hcj_pos).mpr (lt_of_lt_of_le hlt hcj_ge)
      linarith
    exact lt_of_le_of_lt
      (hlb _ (mem_of_getElem?_eq_some _ j _ hDj)) hdj_neg

/-- C6 witness: the full statement instantiated at the equity curve
`[1, 2, 1]` (which dips from 2 back to 1). -/
theorem c6_max_drawdown_spec_witness :
    ∃ m, max_drawdown [1, 2, 1] = some m
      ∧ m ∈ List.zipWith (fun e c => e / c - 1) ([1, 2, 1] : List ℚ)
          (cummax [1, 2, 1])
      ∧ (∀ d ∈ List.zipWith (fun e c => e / c - 1) ([1, 2, 1] : List ℚ)
            (cummax [1, 2, 1]), m ≤ d)
      ∧ (∀ i, i < ([1, 2, 1] : List ℚ).length →
          (cummax [1, 2, 1])[i]? =
            some ((([1, 2, 1] : List ℚ).take (i + 1)).foldl max 1))
      ∧ m ≤ 0
      ∧ (List.Chain' (· ≤ ·) ([1, 2, 1] : List ℚ) → m = 0)
      ∧ (∀ i j, i < j → j < ([1, 2, 1] : List ℚ).length →
          ∀ ei ej, ([1, 2, 1] : List ℚ)[i]? = some ei →
          ([1, 2, 1] : List ℚ)[j]? = some ej → ej < ei → m < 0) :=
  c6_max_drawdown_spec 1 [2, 1] (by norm_num)

end QFT
